import Mathlib

/-!
Verification of `src/storage/metastore/qflock_metastore_split_locations.py`.

The script connects to a Hive metastore, lists the tables of the `tpcds`
database, sorts them by the cached size parameter `qflock.storage_size`
(descending, Python stable sort), and for every even rank rewrites the
substring `hdfs://qflock-storage-dc1:` to `hdfs://qflock-storage-dc2:` in
`sd.location` and in `sd.serdeInfo.parameters['path']`, submitting each
rewritten descriptor through `alter_table`.  Finally it prints one line per
table reading `sd.location`, `sd.serdeInfo.parameters['path']` and
`sd.parameters['qflock.storage_size']` without presence checks.

Python strings are modelled as Lean `String` (with `List Char` as the
underlying data); `x in s` is `pyIn`, `s.replace(p, r)` is `pyReplace`
(leftmost, non-overlapping, all occurrences — `goR` walks the string with a
skip counter so that every definition is structurally recursive and hence
kernel-computable); dicts are association lists with first-key-wins lookup,
matching Python dicts whose keys are unique.
-/

/-- Boolean list version of "q is a prefix of s" (Python `s.startswith(q)`,
used to express occurrences of a pattern inside a string). -/
def isPre : List Char → List Char → Bool
  | [], _ => true
  | _ :: _, [] => false
  | a :: q, b :: s => a == b && isPre q s

/-- Python substring test `p in s`: some position of `s` starts with `p`. -/
def containsSub (p : List Char) : List Char → Bool
  | [] => isPre p []
  | c :: t => isPre p (c :: t) || containsSub p t

/-- Worker for Python `str.replace`: `n` is the number of characters still to
skip because they belong to an occurrence that was already replaced.  At skip
state 0, a match of `p` emits `r` and skips the match; otherwise one character
is copied.  Structural recursion on the string. -/
def goR (p r : List Char) : Nat → List Char → List Char
  | _, [] => []
  | n + 1, _ :: t => goR p r n t
  | 0, c :: t =>
    if isPre p (c :: t) && !p.isEmpty then r ++ goR p r (p.length - 1) t
    else c :: goR p r 0 t

/-- Python `s.replace(p, r)` on character lists (for the nonempty patterns the
script uses): replace every leftmost non-overlapping occurrence of `p` by `r`. -/
def replaceAll (p r s : List Char) : List Char := goR p r 0 s

/-- Python `p in s` on `String`. -/
def pyIn (p s : String) : Bool := containsSub p.data s.data

/-- Python `s.replace(p, r)` on `String`. -/
def pyReplace (s p r : String) : String := ⟨replaceAll p.data r.data s.data⟩

/-- Value of a decimal digit character, `none` for non-digits. -/
def digitVal (c : Char) : Option Nat :=
  if '0' ≤ c ∧ c ≤ '9' then some (c.toNat - '0'.toNat) else none

/-- Accumulating decimal parser: fails on the first non-digit. -/
def parseNatAux : Nat → List Char → Option Nat
  | acc, [] => some acc
  | acc, c :: cs =>
    match digitVal c with
    | some d => parseNatAux (acc * 10 + d) cs
    | none => none

/-- Python `int(s)` for plain decimal literals with an optional leading minus
sign (the form the cached size strings take); `none` models `ValueError`. -/
def pyInt (s : String) : Option Int :=
  match s.data with
  | [] => none
  | '-' :: c :: cs => (parseNatAux 0 (c :: cs)).map (fun n => -(n : Int))
  | c :: cs => (parseNatAux 0 (c :: cs)).map (fun n => (n : Int))

/-- Python dict lookup `d.get(k)`; `d[k]` raises `KeyError` exactly when this
is `none`.  First binding wins, matching dicts with unique keys. -/
def dictGet (d : List (String × String)) (k : String) : Option String :=
  match d with
  | [] => none
  | (k', v) :: t => if k' = k then some v else dictGet t k

/-- Python dict assignment `d[k] = v`. -/
def dictSet (d : List (String × String)) (k v : String) : List (String × String) :=
  match d with
  | [] => [(k, v)]
  | (k', v') :: t => if k' = k then (k, v) :: t else (k', v') :: dictSet t k v

/-- The errors the script can raise in the modelled fragment. -/
inductive PyErr where
  | keyError
  | valueError
  | nameError
deriving DecidableEq

/-- Thrift `SerDeInfo`: a serialization library name (standing for every field
the script never touches) plus the parameter dict that may carry `path`. -/
structure SerDeInfo where
  serializationLib : String
  parameters : List (String × String)
deriving DecidableEq

/-- Thrift `StorageDescriptor`: the storage `location`, column names (an
untouched field), the nested `serdeInfo`, and the parameter dict carrying
`qflock.storage_size`. -/
structure StorageDescriptor where
  location : String
  cols : List String
  serdeInfo : SerDeInfo
  parameters : List (String × String)
deriving DecidableEq

/-- Thrift `Table` descriptor: name, database, owner (an untouched field), the
storage descriptor and the table-level parameter dict (untouched). -/
structure Table where
  tableName : String
  dbName : String
  owner : String
  sd : StorageDescriptor
  parameters : List (String × String)
deriving DecidableEq

/-- One `client.alter_table(db_name, name, tbl)` submission: a whole-record
replace carrying the complete descriptor. -/
structure AlterCall where
  db : String
  name : String
  tbl : Table
deriving DecidableEq

/-- The literal `hdfs://qflock-storage-dc1:` from the script. -/
def dc1Loc : String := "hdfs://qflock-storage-dc1:"

/-- The literal `hdfs://qflock-storage-dc2:` from the script. -/
def dc2Loc : String := "hdfs://qflock-storage-dc2:"

/-- The literal `tpcds` (`db_name`). -/
def dbNameStr : String := "tpcds"

/-- The cached size key `qflock.storage_size`. -/
def sizeKeyStr : String := "qflock.storage_size"

/-- The serde parameter key `path`. -/
def pathKeyStr : String := "path"

/-- The sort key `int(tbl.sd.parameters['qflock.storage_size'])`:
`KeyError` when the key is absent, `ValueError` when not numeric. -/
def sizeKeyE (t : Table) : Except PyErr Int :=
  match dictGet t.sd.parameters sizeKeyStr with
  | none => .error .keyError
  | some s =>
    match pyInt s with
    | none => .error .valueError
    | some n => .ok n

/-- Decorate every table with its sort key, left to right, stopping at the
first failure — exactly how Python's `sort(key=...)` evaluates keys. -/
def decorate : List Table → Except PyErr (List (Int × Table))
  | [] => .ok []
  | t :: ts =>
    match sizeKeyE t, decorate ts with
    | .ok k, .ok ds => .ok ((k, t) :: ds)
    | .error e, _ => .error e
    | .ok _, .error e => .error e

/-- Insert into a size-descending list, keeping the inserted element before
every element of equal key: together with `sortD` this realises Python's
stable `sort(key=..., reverse=True)`. -/
def insDesc (x : Int × Table) : List (Int × Table) → List (Int × Table)
  | [] => [x]
  | y :: ys => if y.1 ≤ x.1 then x :: y :: ys else y :: insDesc x ys

/-- Stable sort by key, descending (Python `sort(key=..., reverse=True)`). -/
def sortD : List (Int × Table) → List (Int × Table)
  | [] => []
  | x :: xs => insDesc x (sortD xs)

/-- `tables.sort(key=lambda tbl: int(tbl.sd.parameters['qflock.storage_size']), reverse=True)`. -/
def sortTablesE (ts : List Table) : Except PyErr (List Table) :=
  match decorate ts with
  | .error e => .error e
  | .ok dts => .ok ((sortD dts).map (fun p => p.2))

/-- `client.alter_table(db_name, tbl.tableName, tbl)`. -/
def mkAlter (t : Table) : AlterCall := ⟨dbNameStr, t.tableName, t⟩

/-- Rewrite of the primary location field:
`tables[i].sd.location = tables[i].sd.location.replace(dc1, dc2)`. -/
def rewriteLoc (t : Table) : Table :=
  { t with sd := { t.sd with location := pyReplace t.sd.location dc1Loc dc2Loc } }

/-- Rewrite of the secondary path field, given its current value `s`:
`tables[i].sd.serdeInfo.parameters['path'] = ....replace(dc1, dc2)`. -/
def rewritePath (t : Table) (s : String) : Table :=
  let sdi : SerDeInfo :=
    ⟨t.sd.serdeInfo.serializationLib,
     dictSet t.sd.serdeInfo.parameters pathKeyStr (pyReplace s dc1Loc dc2Loc)⟩
  { t with sd := { t.sd with serdeInfo := sdi } }

/-- First `if` of the loop body: when `dc1` occurs in `sd.location`, rewrite
the location, print the trace line, and submit the updated descriptor. -/
def step1 (t : Table) : Table × List AlterCall × List String :=
  if pyIn dc1Loc t.sd.location then
    (rewriteLoc t, [mkAlter (rewriteLoc t)],
      ["Alter " ++ t.tableName ++ " location to dc2"])
  else (t, [], [])

/-- Second `if` of the loop body: when `'path'` is a serde parameter and `dc1`
occurs in its value, rewrite it and submit the updated descriptor again. -/
def step2 (t : Table) : Table × List AlterCall :=
  match dictGet t.sd.serdeInfo.parameters pathKeyStr with
  | some s => if pyIn dc1Loc s then (rewritePath t s, [mkAlter (rewritePath t s)]) else (t, [])
  | none => (t, [])

/-- One iteration of `for i in range(0, len(tables), 2)` applied to
`tables[i]`: the updated descriptor, the `alter_table` submissions in order,
and the printed trace lines. -/
def processTable (t : Table) : Table × List AlterCall × List String :=
  ((step2 (step1 t).1).1,
   (step1 t).2.1 ++ (step2 (step1 t).1).2,
   (step1 t).2.2)

/-- The whole rewrite loop: even ranks (parity flag `true`) go through the
loop body, odd ranks are untouched.  Returns the updated table list together
with all submissions and trace lines in order. -/
def processAll : Bool → List Table → List Table × List AlterCall × List String
  | _, [] => ([], [], [])
  | true, t :: ts =>
    ((processTable t).1 :: (processAll false ts).1,
     (processTable t).2.1 ++ (processAll false ts).2.1,
     (processTable t).2.2 ++ (processAll false ts).2.2)
  | false, t :: ts =>
    (t :: (processAll true ts).1, (processAll true ts).2.1, (processAll true ts).2.2)

/-- One line of the final inventory loop,
`print(t.sd.location, t.sd.serdeInfo.parameters['path'], t.sd.parameters['qflock.storage_size'])`:
both subscripts raise `KeyError` when the key is absent. -/
def tableLine (t : Table) : Except PyErr String :=
  match dictGet t.sd.serdeInfo.parameters pathKeyStr with
  | none => .error .keyError
  | some p =>
    match dictGet t.sd.parameters sizeKeyStr with
    | none => .error .keyError
    | some sz => .ok (t.sd.location ++ " " ++ p ++ " " ++ sz)

/-- The final inventory loop over all tables, stopping at the first raise. -/
def finalPrint : List Table → Except PyErr (List String)
  | [] => .ok []
  | t :: ts =>
    match tableLine t with
    | .error e => .error e
    | .ok l => (finalPrint ts).map (fun ls => l :: ls)

/-- Observable result of one run of the `__main__` block after the connection
is up: the catalog contents after the run (in the order of the script's
`tables` list, i.e. sorted), every `alter_table` submission in order, and the
printed lines of the rewrite loop and inventory loop (`.error` when the run
raises; submissions already made stay committed). -/
structure RunResult where
  tables : List Table
  alters : List AlterCall
  output : Except PyErr (List String)

/-- One run of the script body on the catalog's table list: sort (raising on
an unsized table), rewrite every even rank, then print the inventory. -/
def run (ts : List Table) : RunResult :=
  match sortTablesE ts with
  | .error e => ⟨ts, [], .error e⟩
  | .ok sorted =>
    match finalPrint (processAll true sorted).1 with
    | .error e => ⟨(processAll true sorted).1, (processAll true sorted).2.1, .error e⟩
    | .ok lines =>
      ⟨(processAll true sorted).1, (processAll true sorted).2.1,
        .ok ((processAll true sorted).2.2 ++ lines)⟩

/-- The two storage backends of the deployment. -/
inductive Backend where
  | dcOne
  | dcTwo
deriving DecidableEq

/-- The assignment the loop realises on the sorted sequence: even ranks are
rewritten to (hence assigned to) `dc2`, odd ranks are left on `dc1`. -/
def assignAlt : Bool → List Table → List (String × Backend)
  | _, [] => []
  | true, t :: ts => (t.tableName, Backend.dcTwo) :: assignAlt false ts
  | false, t :: ts => (t.tableName, Backend.dcOne) :: assignAlt true ts

/-- The placement plan as a mapping from table identity to target backend,
computed from the catalog's table list. -/
def planAssign (ts : List Table) : Except PyErr (List (String × Backend)) :=
  match sortTablesE ts with
  | .error e => .error e
  | .ok sorted => .ok (assignAlt true sorted)

/-- Sum of the keys at even positions and at odd positions of a decorated
list: the total size the plan puts on `dc2` resp. leaves on `dc1`. -/
def sumAlt : List (Int × Table) → Int × Int
  | [] => (0, 0)
  | x :: xs => ((sumAlt xs).2 + x.1, (sumAlt xs).1)

/-- Total size assigned to backend `dc2` (even ranks of the sorted list). -/
def dc2Assigned (dts : List (Int × Table)) : Int := (sumAlt (sortD dts)).1

/-- Total size assigned to backend `dc1` (odd ranks of the sorted list). -/
def dc1Assigned (dts : List (Int × Table)) : Int := (sumAlt (sortD dts)).2

/-- Size of the largest single table of a decorated list (`0` when empty). -/
def maxKey (l : List (Int × Table)) : Int := l.foldr (fun x m => max x.1 m) 0

/-- Key of the head of a decorated list (`0` when empty). -/
def headKey : List (Int × Table) → Int
  | [] => 0
  | x :: _ => x.1

/-- A docker container entry of `docker network inspect qflock-net`:
its `Name` and its `IPv4Address` (an address with a `/prefixlen` suffix). -/
structure DockerContainer where
  name : String
  ipv4Address : String
deriving DecidableEq

/-- Python `addr.split('/')[0]`: everything before the first slash. -/
def splitSlashHead (s : String) : String := ⟨s.data.takeWhile (fun c => !(c == '/'))⟩

/-- `get_docker_ip(docker_name)` against hostname `hostname` and the container
table of `qflock-net`: loopback on co-location, the first matching container's
address otherwise, and plain `None` when nothing matches — the function body
contains no raise statement.  (The `host_aliases` side channel it writes on a
hit is an untracked side effect.) -/
def get_docker_ip (hostname : String) (containers : List DockerContainer)
    (docker_name : String) : Option String :=
  if docker_name = hostname then some "127.0.0.1"
  else
    match containers.find? (fun c => c.name == docker_name) with
    | some c => some (splitSlashHead c.ipv4Address)
    | none => none

/-- A storage entry as returned by `fs.get_file_info(FileSelector(path))`. -/
structure PyFileInfo where
  size : Int
  isFile : Bool
deriving DecidableEq

/-- The module-level binding of the name `table`: the module never assigns
`table` anywhere, so the name is unbound. -/
def moduleTable : Option Table := none

/-- `get_storage_size(location)`: its body reads the free variable `table`
(`pyarrow.fs.FileSystem.from_uri(table.sd.location)`), not its `location`
parameter.  `tableVar` is the value of the module-level name `table`
(raising `NameError` when unbound) and `fs` maps a URI to the directory
listing of the storage backend. -/
def get_storage_size (tableVar : Option Table) (fs : String → List PyFileInfo)
    (location : String) : Except PyErr Int :=
  match tableVar with
  | none => .error .nameError
  | some t =>
    .ok (((fs t.sd.location).filter (fun f => f.isFile)).foldl (fun acc f => acc + f.size) 0)

/-- Sorted by key, descending. -/
def DescSorted (l : List (Int × Table)) : Prop :=
  List.Pairwise (fun x y : Int × Table => y.1 ≤ x.1) l

/-- A descriptor the loop body leaves alone: no occurrence of the `dc1`
authority in the location, nor in the serde `path` value if one is present.
This is what "already located at the target backend" means to the code, whose
only test is substring containment of the `dc1` literal. -/
def tableClean (t : Table) : Bool :=
  !(pyIn dc1Loc t.sd.location) &&
    (match dictGet t.sd.serdeInfo.parameters pathKeyStr with
     | some s => !(pyIn dc1Loc s)
     | none => true)

/-- Every descriptor the loop body would touch (parity `true` = the next rank
is even) is clean. -/
def EvenClean : Bool → List Table → Prop
  | _, [] => True
  | true, t :: ts => tableClean t = true ∧ EvenClean false ts
  | false, _ :: ts => EvenClean true ts

/-- A concrete descriptor for evaluating the model: name, cached size string,
location, and an optional serde `path` value. -/
def exT (n sz loc : String) (p : Option String) : Table :=
  { tableName := n, dbName := "tpcds", owner := "qflock",
    sd := { location := loc, cols := ["c0"],
            serdeInfo := { serializationLib := "parquet",
                           parameters := match p with | some s => [("path", s)] | none => [] },
            parameters := [("qflock.storage_size", sz)] },
    parameters := [] }

/-- A descriptor whose location fields reference neither backend: no
occurrence of the `dc1` nor of the `dc2` authority anywhere the loop looks. -/
def tableForeign (t : Table) : Bool :=
  (!(pyIn dc1Loc t.sd.location) && !(pyIn dc2Loc t.sd.location)) &&
    (match dictGet t.sd.serdeInfo.parameters pathKeyStr with
     | some s => !(pyIn dc1Loc s) && !(pyIn dc2Loc s)
     | none => true)

/-- Concrete tables realising the four-table example of the spec (sizes 400,
300, 200, 100, all initially on `dc1`). -/
def exTab1 : Table :=
  exT "t1" "400" "hdfs://qflock-storage-dc1:9000/tpcds/t1"
    (some "hdfs://qflock-storage-dc1:9000/tpcds/t1")

/-- Size-300 example table. -/
def exTab2 : Table :=
  exT "t2" "300" "hdfs://qflock-storage-dc1:9000/tpcds/t2"
    (some "hdfs://qflock-storage-dc1:9000/tpcds/t2")

/-- Size-200 example table. -/
def exTab3 : Table :=
  exT "t3" "200" "hdfs://qflock-storage-dc1:9000/tpcds/t3"
    (some "hdfs://qflock-storage-dc1:9000/tpcds/t3")

/-- Size-100 example table. -/
def exTab4 : Table :=
  exT "t4" "100" "hdfs://qflock-storage-dc1:9000/tpcds/t4"
    (some "hdfs://qflock-storage-dc1:9000/tpcds/t4")

/-- The four-table example catalog in listing order. -/
def exTs : List Table := [exTab1, exTab2, exTab3, exTab4]

/-- Its decoration with the parsed sizes. -/
def exDts : List (Int × Table) :=
  [(400, exTab1), (300, exTab2), (200, exTab3), (100, exTab4)]

/-- A descriptor on `dc1` both in location and in the serde path. -/
def cexTabC3 : Table :=
  exT "c3" "10" "hdfs://qflock-storage-dc1:9000/tpcds/c3"
    (some "hdfs://qflock-storage-dc1:9000/tpcds/c3")

/-- A descriptor already on `dc2` in both fields. -/
def cleanTabC4 : Table :=
  exT "c4" "50" "hdfs://qflock-storage-dc2:9000/tpcds/c4"
    (some "hdfs://qflock-storage-dc2:9000/tpcds/c4")

/-- Two equal-size tables with names in alphabetical order. -/
def tabEqA : Table := exT "a" "100" "hdfs://qflock-storage-dc1:9000/tpcds/a" none

/-- The second equal-size table. -/
def tabEqB : Table := exT "b" "100" "hdfs://qflock-storage-dc1:9000/tpcds/b" none

/-- A fully sized and rewriteable table. -/
def sizedTabC6 : Table :=
  exT "good6" "400" "hdfs://qflock-storage-dc1:9000/tpcds/good6"
    (some "hdfs://qflock-storage-dc1:9000/tpcds/good6")

/-- A table with no `qflock.storage_size` parameter at all. -/
def unsizedTabC6 : Table :=
  { tableName := "nosize6", dbName := "tpcds", owner := "qflock",
    sd := { location := "hdfs://qflock-storage-dc1:9000/tpcds/nosize6", cols := ["c0"],
            serdeInfo := { serializationLib := "parquet",
                           parameters := [("path", "hdfs://qflock-storage-dc1:9000/tpcds/nosize6")] },
            parameters := [] },
    parameters := [] }

/-- A descriptor located on a backend the script does not know. -/
def foreignTabC8 : Table :=
  exT "f8" "70" "s3://bucket/tpcds/f8" (some "s3://bucket/tpcds/f8")

/-- A sized, rewriteable table used next to an unsized one. -/
def sizedTabC10 : Table :=
  exT "good10" "500" "hdfs://qflock-storage-dc1:9000/tpcds/good10"
    (some "hdfs://qflock-storage-dc1:9000/tpcds/good10")

/-- A table with no `qflock.storage_size` parameter. -/
def unsizedTabC10 : Table :=
  { tableName := "nosize10", dbName := "tpcds", owner := "qflock",
    sd := { location := "hdfs://qflock-storage-dc1:9000/tpcds/nosize10", cols := ["c0"],
            serdeInfo := { serializationLib := "parquet",
                           parameters := [("path", "hdfs://qflock-storage-dc1:9000/tpcds/nosize10")] },
            parameters := [] },
    parameters := [] }

/-- A sized table carrying no serde `path` parameter. -/
def pathlessTabC10 : Table :=
  exT "p10" "300" "hdfs://qflock-storage-dc1:9000/tpcds/p10" none

/-! ## Lemmas about the string primitives -/

theorem isPre_iff (q : List Char) : ∀ s, isPre q s = true ↔ ∃ u, q ++ u = s := by
  induction q with
  | nil => intro s; simp [isPre]
  | cons a q ih =>
    intro s
    cases s with
    | nil =>
      simp only [isPre, List.cons_append]
      constructor
      · intro h; exact absurd h (by simp)
      · rintro ⟨u, hu⟩; exact absurd hu (by simp)
    | cons b s =>
      simp only [isPre, Bool.and_eq_true, beq_iff_eq, List.cons_append]
      constructor
      · rintro ⟨rfl, h⟩
        obtain ⟨u, rfl⟩ := (ih s).mp h
        exact ⟨u, rfl⟩
      · rintro ⟨u, hu⟩
        injection hu with h1 h2
        exact ⟨h1, (ih s).mpr ⟨u, h2⟩⟩

theorem isPre_append_self (q u : List Char) : isPre q (q ++ u) = true :=
  (isPre_iff q (q ++ u)).mpr ⟨u, rfl⟩

theorem isPre_refl (q : List Char) : isPre q q = true := by
  have := isPre_append_self q []
  simpa using this

theorem isPre_cons (a : Char) (q : List Char) (b : Char) (s : List Char) :
    isPre (a :: q) (b :: s) = true ↔ a = b ∧ isPre q s = true := by
  simp [isPre]

theorem containsSub_iff (p : List Char) :
    ∀ s, containsSub p s = true ↔ ∃ i, isPre p (List.drop i s) = true := by
  intro s
  induction s with
  | nil =>
    constructor
    · intro h; exact ⟨0, h⟩
    · rintro ⟨i, h⟩; simpa [List.drop_nil] using h
  | cons c t ih =>
    simp only [containsSub, Bool.or_eq_true]
    constructor
    · rintro (h | h)
      · exact ⟨0, h⟩
      · obtain ⟨i, hi⟩ := ih.mp h
        exact ⟨i + 1, hi⟩
    · rintro ⟨i, hi⟩
      cases i with
      | zero => exact Or.inl hi
      | succ j => exact Or.inr (ih.mpr ⟨j, hi⟩)

theorem containsSub_of_isPre (p s : List Char) (h : isPre p s = true) :
    containsSub p s = true := by
  cases s with
  | nil => exact h
  | cons c t => simp [containsSub, h]

theorem isPre_append_left (p : List Char) :
    ∀ (u v : List Char), isPre p (u ++ v) = true → p.length ≤ u.length → isPre p u = true := by
  induction p with
  | nil => intro u v _ _; exact rfl
  | cons a q ih =>
    intro u v h hl
    cases u with
    | nil => simp at hl
    | cons b u' =>
      rw [List.cons_append, isPre_cons] at h
      rw [isPre_cons]
      refine ⟨h.1, ih u' v h.2 ?_⟩
      simpa using Nat.le_of_succ_le_succ hl

theorem goR_skip (p r : List Char) :
    ∀ (t : List Char) (n : Nat), goR p r n t = goR p r 0 (List.drop n t) := by
  intro t
  induction t with
  | nil => intro n; cases n <;> simp [goR]
  | cons c t ih =>
    intro n
    cases n with
    | zero => simp
    | succ m =>
      show goR p r m t = goR p r 0 (List.drop m t)
      exact ih m

theorem replaceAll_cons_pos (p r : List Char) (c : Char) (t : List Char)
    (h : isPre p (c :: t) = true) (hp : p ≠ []) :
    replaceAll p r (c :: t) = r ++ replaceAll p r (List.drop (p.length - 1) t) := by
  have hpe : p.isEmpty = false := by
    cases p with
    | nil => exact absurd rfl hp
    | cons a q => rfl
  show goR p r 0 (c :: t) = _
  rw [show goR p r 0 (c :: t) =
      (if isPre p (c :: t) && !p.isEmpty then r ++ goR p r (p.length - 1) t
       else c :: goR p r 0 t) from rfl]
  rw [h, hpe]
  simp [goR_skip, replaceAll]

theorem replaceAll_cons_neg (p r : List Char) (c : Char) (t : List Char)
    (h : isPre p (c :: t) = false) :
    replaceAll p r (c :: t) = c :: replaceAll p r t := by
  show goR p r 0 (c :: t) = _
  rw [show goR p r 0 (c :: t) =
      (if isPre p (c :: t) && !p.isEmpty then r ++ goR p r (p.length - 1) t
       else c :: goR p r 0 t) from rfl]
  rw [h]
  simp [replaceAll]

theorem replaceAll_id (p r : List Char) :
    ∀ s, containsSub p s = false → replaceAll p r s = s := by
  intro s
  induction s with
  | nil => intro _; rfl
  | cons c t ih =>
    intro h
    have h1 : isPre p (c :: t) = false := by
      cases hx : isPre p (c :: t)
      · rfl
      · rw [containsSub_of_isPre p (c :: t) hx] at h
        exact absurd h (by simp)
    have h2 : containsSub p t = false := by
      have : containsSub p (c :: t) = (isPre p (c :: t) || containsSub p t) := rfl
      rw [this, h1] at h
      simpa using h
    rw [replaceAll_cons_neg p r c t h1, ih h2]

theorem replaceAll_left (r u : List Char) (a : Char) (pd : List Char)
    (hu : containsSub (a :: pd) u = false) :
    replaceAll (a :: pd) r ((a :: pd) ++ u) = r ++ u := by
  rw [List.cons_append]
  have hm : isPre (a :: pd) (a :: (pd ++ u)) = true := by
    rw [show a :: (pd ++ u) = (a :: pd) ++ u from rfl]
    exact isPre_append_self _ _
  rw [replaceAll_cons_pos _ _ _ _ hm (by simp)]
  rw [show (a :: pd).length - 1 = pd.length by simp]
  rw [List.drop_left]
  rw [replaceAll_id _ _ _ hu]

theorem isPre_replaceAll_transfer (a : Char) (pa ra : List Char) :
    ∀ (t q : List Char), a ∉ q →
      isPre q (replaceAll (a :: pa) (a :: ra) t) = true → isPre q t = true := by
  intro t
  induction t with
  | nil =>
    intro q hq h
    cases q with
    | nil => rfl
    | cons x xs => exact absurd h (by simp [replaceAll, goR, isPre])
  | cons c t ih =>
    intro q hq h
    by_cases hm : isPre (a :: pa) (c :: t) = true
    · rw [replaceAll_cons_pos _ _ _ _ hm (by simp)] at h
      cases q with
      | nil => rfl
      | cons x xs =>
        rw [List.cons_append, isPre_cons] at h
        exact absurd h.1 (by intro hxa; exact hq (by rw [hxa]; exact List.mem_cons_self a xs))
    · have hm' : isPre (a :: pa) (c :: t) = false := by
        cases hx : isPre (a :: pa) (c :: t)
        · rfl
        · exact absurd hx hm
      rw [replaceAll_cons_neg _ _ _ _ hm'] at h
      cases q with
      | nil => rfl
      | cons x xs =>
        rw [isPre_cons] at h ⊢
        refine ⟨h.1, ih xs ?_ h.2⟩
        intro hax
        exact hq (List.mem_cons_of_mem _ hax)

theorem containsSub_append_dc (a : Char) (pa ra : List Char)
    (hra : a ∉ ra) (hlen : pa.length = ra.length) (hne : pa ≠ ra)
    (X : List Char) (hX : containsSub (a :: pa) X = false) :
    containsSub (a :: pa) ((a :: ra) ++ X) = false := by
  cases hc : containsSub (a :: pa) ((a :: ra) ++ X)
  · rfl
  exfalso
  obtain ⟨i, hi⟩ := (containsSub_iff _ _).mp hc
  rw [List.drop_append_eq_append_drop] at hi
  by_cases hlt : i < (a :: ra).length
  · rw [Nat.sub_eq_zero_of_le (Nat.le_of_lt hlt), List.drop_zero] at hi
    cases i with
    | zero =>
      rw [List.drop_zero] at hi
      have hpre : isPre (a :: pa) (a :: ra) = true := by
        refine isPre_append_left _ _ _ hi ?_
        simp [hlen]
      rw [isPre_cons] at hpre
      obtain ⟨u, hu⟩ := (isPre_iff _ _).mp hpre.2
      have hu0 : u.length = 0 := by
        have := congrArg List.length hu
        simp at this
        omega
      cases u with
      | nil => exact hne (by simpa using hu)
      | cons _ _ => simp at hu0
    | succ j =>
      rw [List.drop_succ_cons] at hi
      have hj : j < ra.length := by
        simp at hlt
        omega
      have hne2 : List.drop j ra ≠ [] := by
        intro hd
        have := congrArg List.length hd
        rw [List.length_drop] at this
        simp at this
        omega
      cases hd : List.drop j ra with
      | nil => exact hne2 hd
      | cons b rest =>
        rw [hd, List.cons_append, isPre_cons] at hi
        apply hra
        have hb : b ∈ List.drop j ra := by rw [hd]; exact List.mem_cons_self b rest
        rw [hi.1]
        exact List.mem_of_mem_drop hb
  · have hdrop : List.drop i (a :: ra) = [] :=
      List.drop_eq_nil_of_le (Nat.le_of_not_lt hlt)
    rw [hdrop, List.nil_append] at hi
    have : containsSub (a :: pa) X = true :=
      (containsSub_iff _ _).mpr ⟨i - (a :: ra).length, hi⟩
    rw [hX] at this
    exact absurd this (by simp)

theorem replaceAll_no_occur (a : Char) (pa ra : List Char)
    (hpa : a ∉ pa) (hra : a ∉ ra) (hlen : pa.length = ra.length) (hne : pa ≠ ra) :
    ∀ s, containsSub (a :: pa) (replaceAll (a :: pa) (a :: ra) s) = false := by
  have H : ∀ (n : Nat) (s : List Char), s.length ≤ n →
      containsSub (a :: pa) (replaceAll (a :: pa) (a :: ra) s) = false := by
    intro n
    induction n with
    | zero =>
      intro s hs
      have : s = [] := List.eq_nil_of_length_eq_zero (Nat.le_zero.mp hs)
      subst this
      rfl
    | succ m ih =>
      intro s hs
      cases s with
      | nil => rfl
      | cons c t =>
        by_cases hm : isPre (a :: pa) (c :: t) = true
        · rw [replaceAll_cons_pos _ _ _ _ hm (by simp)]
          apply containsSub_append_dc a pa ra hra hlen hne
          apply ih
          rw [List.length_drop]
          simp at hs
          omega
        · have hm' : isPre (a :: pa) (c :: t) = false := by
            cases hx : isPre (a :: pa) (c :: t)
            · rfl
            · exact absurd hx hm
          rw [replaceAll_cons_neg _ _ _ _ hm']
          have hrec : containsSub (a :: pa) (replaceAll (a :: pa) (a :: ra) t) = false := by
            apply ih
            simp at hs
            omega
          have hhead : isPre (a :: pa) (c :: replaceAll (a :: pa) (a :: ra) t) = false := by
            cases hx : isPre (a :: pa) (c :: replaceAll (a :: pa) (a :: ra) t)
            · rfl
            exfalso
            rw [isPre_cons] at hx
            have hpt : isPre pa t = true :=
              isPre_replaceAll_transfer a pa ra t pa hpa hx.2
            have : isPre (a :: pa) (c :: t) = true := by
              rw [isPre_cons]
              exact ⟨hx.1, hpt⟩
            rw [this] at hm'
            exact absurd hm' (by simp)
          have : containsSub (a :: pa) (c :: replaceAll (a :: pa) (a :: ra) t) =
              (isPre (a :: pa) (c :: replaceAll (a :: pa) (a :: ra) t) ||
               containsSub (a :: pa) (replaceAll (a :: pa) (a :: ra) t)) := rfl
          rw [this, hhead, hrec]
          rfl
  intro s
  exact H s.length s (Nat.le_refl _)

theorem dc_no_occur (s : List Char) :
    containsSub dc1Loc.data (replaceAll dc1Loc.data dc2Loc.data s) = false := by
  have h1 : dc1Loc.data = 'h' :: "dfs://qflock-storage-dc1:".data := rfl
  have h2 : dc2Loc.data = 'h' :: "dfs://qflock-storage-dc2:".data := rfl
  rw [h1, h2]
  exact replaceAll_no_occur 'h' _ _ (by decide) (by decide) (by decide) (by decide) s

theorem pyIn_pyReplace_false (s : String) :
    pyIn dc1Loc (pyReplace s dc1Loc dc2Loc) = false :=
  dc_no_occur s.data

/-! ## Lemmas about the stable descending sort -/

theorem mem_insDesc (x y : Int × Table) :
    ∀ l, (y ∈ insDesc x l ↔ y = x ∨ y ∈ l) := by
  intro l
  induction l with
  | nil => simp [insDesc]
  | cons z zs ih =>
    simp only [insDesc]
    by_cases h : z.1 ≤ x.1
    · simp [h]
    · simp only [if_neg h, List.mem_cons, ih]
      tauto

theorem mem_sortD (y : Int × Table) : ∀ l, (y ∈ sortD l ↔ y ∈ l) := by
  intro l
  induction l with
  | nil => simp [sortD]
  | cons x xs ih =>
    simp only [sortD, mem_insDesc, List.mem_cons, ih]

theorem insDesc_sorted (x : Int × Table) :
    ∀ l, DescSorted l → DescSorted (insDesc x l) := by
  intro l
  induction l with
  | nil => intro _; simp [insDesc, DescSorted]
  | cons z zs ih =>
    intro h
    rw [DescSorted, List.pairwise_cons] at h
    simp only [insDesc]
    by_cases hzx : z.1 ≤ x.1
    · rw [if_pos hzx]
      rw [DescSorted, List.pairwise_cons]
      constructor
      · intro y hy
        rcases List.mem_cons.mp hy with rfl | hy2
        · exact hzx
        · exact le_trans (h.1 y hy2) hzx
      · rw [List.pairwise_cons]
        exact h
    · rw [if_neg hzx]
      rw [DescSorted, List.pairwise_cons]
      constructor
      · intro y hy
        rcases (mem_insDesc x y zs).mp hy with rfl | hy2
        · exact le_of_not_le hzx
        · exact h.1 y hy2
      · exact ih h.2

theorem sortD_sorted : ∀ l, DescSorted (sortD l) := by
  intro l
  induction l with
  | nil => simp [sortD, DescSorted]
  | cons x xs ih => exact insDesc_sorted x (sortD xs) ih

theorem insDesc_eq_cons (x : Int × Table) :
    ∀ l, (∀ y ∈ l, y.1 ≤ x.1) → insDesc x l = x :: l := by
  intro l hall
  cases l with
  | nil => rfl
  | cons z zs =>
    simp only [insDesc]
    rw [if_pos (hall z (List.mem_cons_self z zs))]

theorem sortD_eq_self : ∀ l, DescSorted l → sortD l = l := by
  intro l
  induction l with
  | nil => intro _; rfl
  | cons x xs ih =>
    intro h
    rw [DescSorted, List.pairwise_cons] at h
    show insDesc x (sortD xs) = x :: xs
    rw [ih h.2]
    exact insDesc_eq_cons x xs h.1

theorem maxKey_insDesc (x : Int × Table) :
    ∀ l, maxKey (insDesc x l) = max x.1 (maxKey l) := by
  intro l
  induction l with
  | nil => simp [insDesc, maxKey]
  | cons z zs ih =>
    simp only [insDesc]
    by_cases h : z.1 ≤ x.1
    · rw [if_pos h]
      rfl
    · rw [if_neg h]
      show max z.1 (maxKey (insDesc x zs)) = max x.1 (max z.1 (maxKey zs))
      rw [ih]
      exact max_left_comm z.1 x.1 (maxKey zs)

theorem maxKey_sortD : ∀ l, maxKey (sortD l) = maxKey l := by
  intro l
  induction l with
  | nil => rfl
  | cons x xs ih =>
    show maxKey (insDesc x (sortD xs)) = maxKey (x :: xs)
    rw [maxKey_insDesc]
    rw [ih]
    rfl

theorem headKey_le_maxKey : ∀ l, headKey l ≤ maxKey l := by
  intro l
  cases l with
  | nil => exact le_refl 0
  | cons x xs => exact le_max_left x.1 (maxKey xs)

theorem sumAlt_bound :
    ∀ l, DescSorted l → (∀ x ∈ l, 0 ≤ x.1) →
      0 ≤ (sumAlt l).1 - (sumAlt l).2 ∧ (sumAlt l).1 - (sumAlt l).2 ≤ headKey l := by
  intro l
  induction l with
  | nil => intro _ _; simp [sumAlt, headKey]
  | cons x xs ih =>
    intro hs hnn
    rw [DescSorted, List.pairwise_cons] at hs
    obtain ⟨h0, h1⟩ := ih hs.2 (fun y hy => hnn y (List.mem_cons_of_mem _ hy))
    have hx : 0 ≤ x.1 := hnn x (List.mem_cons_self x xs)
    show 0 ≤ (sumAlt xs).2 + x.1 - (sumAlt xs).1 ∧
      (sumAlt xs).2 + x.1 - (sumAlt xs).1 ≤ x.1
    cases xs with
    | nil => simp [sumAlt]; exact hx
    | cons y ys =>
      have hyx : y.1 ≤ x.1 := hs.1 y (List.mem_cons_self y ys)
      have hhead : headKey (y :: ys) = y.1 := rfl
      rw [hhead] at h1
      omega

/-! ## Lemmas about dict operations -/

theorem dictGet_dictSet_self (k v : String) :
    ∀ d, dictGet (dictSet d k v) k = some v := by
  intro d
  induction d with
  | nil => simp [dictSet, dictGet]
  | cons p t ih =>
    obtain ⟨k', v'⟩ := p
    simp only [dictSet]
    by_cases h : k' = k
    · rw [if_pos h]
      simp [dictGet]
    · rw [if_neg h]
      simp only [dictGet]
      rw [if_neg h]
      exact ih

theorem dictGet_dictSet_ne (k k' v : String) (hk : k' ≠ k) :
    ∀ d, dictGet (dictSet d k v) k' = dictGet d k' := by
  intro d
  induction d with
  | nil =>
    simp only [dictSet, dictGet]
    rw [if_neg (fun hc => hk hc.symm)]
  | cons p t ih =>
    obtain ⟨k0, v0⟩ := p
    simp only [dictSet]
    by_cases h : k0 = k
    · rw [if_pos h]
      simp only [dictGet]
      rw [if_neg (fun hc => hk hc.symm), if_neg (by rw [h]; exact fun hc => hk hc.symm)]
    · rw [if_neg h]
      simp only [dictGet]
      by_cases h2 : k0 = k'
      · rw [if_pos h2, if_pos h2]
      · rw [if_neg h2, if_neg h2]
        exact ih

/-! ## Lemmas about one iteration of the rewrite loop -/

theorem step1_tableName (t : Table) : (step1 t).1.tableName = t.tableName := by
  unfold step1
  split <;> rfl

theorem step1_dbName (t : Table) : (step1 t).1.dbName = t.dbName := by
  unfold step1
  split <;> rfl

theorem step1_owner (t : Table) : (step1 t).1.owner = t.owner := by
  unfold step1
  split <;> rfl

theorem step1_params (t : Table) : (step1 t).1.parameters = t.parameters := by
  unfold step1
  split <;> rfl

theorem step1_cols (t : Table) : (step1 t).1.sd.cols = t.sd.cols := by
  unfold step1
  split <;> rfl

theorem step1_sdParams (t : Table) : (step1 t).1.sd.parameters = t.sd.parameters := by
  unfold step1
  split <;> rfl

theorem step1_serde (t : Table) : (step1 t).1.sd.serdeInfo = t.sd.serdeInfo := by
  unfold step1
  split <;> rfl

theorem step1_loc_clean (t : Table) : pyIn dc1Loc (step1 t).1.sd.location = false := by
  unfold step1
  split
  next h => exact pyIn_pyReplace_false t.sd.location
  next h =>
    show pyIn dc1Loc t.sd.location = false
    cases hx : pyIn dc1Loc t.sd.location
    · rfl
    · exact absurd hx h

theorem step1_noop (t : Table) (h : pyIn dc1Loc t.sd.location = false) :
    step1 t = (t, [], []) := by
  unfold step1
  rw [if_neg (by rw [h]; simp)]

theorem step2_location (t : Table) : (step2 t).1.sd.location = t.sd.location := by
  unfold step2
  split
  · split <;> rfl
  · rfl

theorem step2_tableName (t : Table) : (step2 t).1.tableName = t.tableName := by
  unfold step2
  split
  · split <;> rfl
  · rfl

theorem step2_dbName (t : Table) : (step2 t).1.dbName = t.dbName := by
  unfold step2
  split
  · split <;> rfl
  · rfl

theorem step2_owner (t : Table) : (step2 t).1.owner = t.owner := by
  unfold step2
  split
  · split <;> rfl
  · rfl

theorem step2_params (t : Table) : (step2 t).1.parameters = t.parameters := by
  unfold step2
  split
  · split <;> rfl
  · rfl

theorem step2_cols (t : Table) : (step2 t).1.sd.cols = t.sd.cols := by
  unfold step2
  split
  · split <;> rfl
  · rfl

theorem step2_sdParams (t : Table) : (step2 t).1.sd.parameters = t.sd.parameters := by
  unfold step2
  split
  · split <;> rfl
  · rfl

theorem step2_serdeLib (t : Table) :
    (step2 t).1.sd.serdeInfo.serializationLib = t.sd.serdeInfo.serializationLib := by
  unfold step2
  split
  · split <;> rfl
  · rfl

theorem step2_path (t : Table) :
    dictGet (step2 t).1.sd.serdeInfo.parameters pathKeyStr =
      (dictGet t.sd.serdeInfo.parameters pathKeyStr).map
        (fun s => if pyIn dc1Loc s then pyReplace s dc1Loc dc2Loc else s) := by
  unfold step2
  split
  next x s hs =>
    by_cases hin : pyIn dc1Loc s = true
    · rw [if_pos hin]
      show dictGet (rewritePath t s).sd.serdeInfo.parameters pathKeyStr = _
      unfold rewritePath
      rw [dictGet_dictSet_self]
      rw [hs]
      simp [hin]
    · have hin' : pyIn dc1Loc s = false := by
        cases hx : pyIn dc1Loc s
        · rfl
        · exact absurd hx hin
      rw [if_neg (by rw [hin']; simp)]
      rw [hs]
      simp [hin']
  next x hn =>
    rw [hn]
    rfl

theorem step2_path_other (t : Table) (k : String) (hk : k ≠ pathKeyStr) :
    dictGet (step2 t).1.sd.serdeInfo.parameters k =
      dictGet t.sd.serdeInfo.parameters k := by
  unfold step2
  split
  next x s hs =>
    split
    · show dictGet (rewritePath t s).sd.serdeInfo.parameters k = _
      unfold rewritePath
      rw [dictGet_dictSet_ne _ _ _ hk]
    · rfl
  next x hn => rfl

theorem step2_noop (t : Table)
    (h : ∀ s, dictGet t.sd.serdeInfo.parameters pathKeyStr = some s → pyIn dc1Loc s = false) :
    step2 t = (t, []) := by
  unfold step2
  split
  next x s hs =>
    rw [if_neg (by rw [h s hs]; simp)]
  next x hn => rfl

theorem tableClean_iff (t : Table) :
    tableClean t = true ↔
      pyIn dc1Loc t.sd.location = false ∧
      (∀ s, dictGet t.sd.serdeInfo.parameters pathKeyStr = some s → pyIn dc1Loc s = false) := by
  unfold tableClean
  rw [Bool.and_eq_true]
  constructor
  · rintro ⟨h1, h2⟩
    constructor
    · simpa using h1
    · intro s hs
      rw [hs] at h2
      simpa using h2
  · rintro ⟨h1, h2⟩
    constructor
    · simpa using h1
    · cases hd : dictGet t.sd.serdeInfo.parameters pathKeyStr with
      | none => rfl
      | some s => simpa using h2 s hd

theorem processTable_tableName (t : Table) :
    (processTable t).1.tableName = t.tableName := by
  show (step2 (step1 t).1).1.tableName = t.tableName
  rw [step2_tableName, step1_tableName]

theorem processTable_sdParams (t : Table) :
    (processTable t).1.sd.parameters = t.sd.parameters := by
  show (step2 (step1 t).1).1.sd.parameters = t.sd.parameters
  rw [step2_sdParams, step1_sdParams]

theorem sizeKeyE_processTable (t : Table) :
    sizeKeyE (processTable t).1 = sizeKeyE t := by
  unfold sizeKeyE
  rw [processTable_sdParams]

theorem processTable_path (t : Table) :
    dictGet (processTable t).1.sd.serdeInfo.parameters pathKeyStr =
      (dictGet t.sd.serdeInfo.parameters pathKeyStr).map
        (fun s => if pyIn dc1Loc s then pyReplace s dc1Loc dc2Loc else s) := by
  show dictGet (step2 (step1 t).1).1.sd.serdeInfo.parameters pathKeyStr = _
  rw [step2_path, step1_serde]

theorem processTable_clean (t : Table) : tableClean (processTable t).1 = true := by
  rw [tableClean_iff]
  constructor
  · show pyIn dc1Loc (step2 (step1 t).1).1.sd.location = false
    rw [step2_location]
    exact step1_loc_clean t
  · intro s hs
    rw [processTable_path t] at hs
    cases hd : dictGet t.sd.serdeInfo.parameters pathKeyStr with
    | none => rw [hd] at hs; exact absurd hs (by simp)
    | some s0 =>
      rw [hd] at hs
      have hfs : (if pyIn dc1Loc s0 = true then pyReplace s0 dc1Loc dc2Loc else s0) = s :=
        Option.some.inj hs
      by_cases hin : pyIn dc1Loc s0 = true
      · rw [if_pos hin] at hfs
        rw [← hfs]
        exact pyIn_pyReplace_false s0
      · have hin' : pyIn dc1Loc s0 = false := by
          cases hx : pyIn dc1Loc s0
          · rfl
          · exact absurd hx hin
        rw [if_neg (by rw [hin']; simp)] at hfs
        rw [← hfs]
        exact hin'

theorem processTable_noop (t : Table) (h : tableClean t = true) :
    processTable t = (t, [], []) := by
  rw [tableClean_iff] at h
  have h1 : step1 t = (t, [], []) := step1_noop t h.1
  have h2 : step2 t = (t, []) := step2_noop t h.2
  show ((step2 (step1 t).1).1, (step1 t).2.1 ++ (step2 (step1 t).1).2, (step1 t).2.2) = (t, [], [])
  rw [h1]
  show ((step2 t).1, [] ++ (step2 t).2, ([] : List String)) = (t, [], [])
  rw [h2]
  rfl

/-! ## Lemmas about the whole loop and the run -/

theorem processAll_clean : ∀ (ts : List Table) (b : Bool), EvenClean b (processAll b ts).1 := by
  intro ts
  induction ts with
  | nil => intro b; cases b <;> trivial
  | cons t ts ih =>
    intro b
    cases b with
    | true => exact ⟨processTable_clean t, ih false⟩
    | false => exact ih true

theorem processAll_noop : ∀ (ts : List Table) (b : Bool),
    EvenClean b ts → processAll b ts = (ts, [], []) := by
  intro ts
  induction ts with
  | nil => intro b _; cases b <;> rfl
  | cons t ts ih =>
    intro b h
    cases b with
    | true =>
      show ((processTable t).1 :: (processAll false ts).1,
            (processTable t).2.1 ++ (processAll false ts).2.1,
            (processTable t).2.2 ++ (processAll false ts).2.2) = (t :: ts, [], [])
      rw [processTable_noop t h.1, ih false h.2]
      rfl
    | false =>
      show (t :: (processAll true ts).1, (processAll true ts).2.1, (processAll true ts).2.2)
           = (t :: ts, [], [])
      rw [ih true h]

theorem assignAlt_processAll : ∀ (ts : List Table) (b : Bool),
    assignAlt b (processAll b ts).1 = assignAlt b ts := by
  intro ts
  induction ts with
  | nil => intro b; cases b <;> rfl
  | cons t ts ih =>
    intro b
    cases b with
    | true =>
      show assignAlt true ((processTable t).1 :: (processAll false ts).1)
           = assignAlt true (t :: ts)
      show ((processTable t).1.tableName, Backend.dcTwo) :: assignAlt false (processAll false ts).1
           = (t.tableName, Backend.dcTwo) :: assignAlt false ts
      rw [processTable_tableName, ih false]
    | false =>
      show (t.tableName, Backend.dcOne) :: assignAlt true (processAll true ts).1
           = (t.tableName, Backend.dcOne) :: assignAlt true ts
      rw [ih true]

theorem decorate_cons_ok (t : Table) (ts : List Table) (dts : List (Int × Table)) :
    decorate (t :: ts) = .ok dts ↔
      ∃ k ds, sizeKeyE t = .ok k ∧ decorate ts = .ok ds ∧ dts = (k, t) :: ds := by
  constructor
  · intro h
    unfold decorate at h
    cases hk : sizeKeyE t with
    | error e => rw [hk] at h; exact absurd h (by simp)
    | ok k =>
      cases hd : decorate ts with
      | error e => rw [hk, hd] at h; exact absurd h (by simp)
      | ok ds =>
        rw [hk, hd] at h
        refine ⟨k, ds, rfl, rfl, ?_⟩
        exact (Except.ok.inj h).symm
  · rintro ⟨k, ds, hk, hd, rfl⟩
    unfold decorate
    rw [hk, hd]

theorem decorate_snd : ∀ (ts : List Table) (dts : List (Int × Table)),
    decorate ts = .ok dts → dts.map (fun p => p.2) = ts := by
  intro ts
  induction ts with
  | nil =>
    intro dts h
    have : dts = [] := (Except.ok.inj h).symm
    rw [this]
    rfl
  | cons t ts ih =>
    intro dts h
    obtain ⟨k, ds, hk, hd, rfl⟩ := (decorate_cons_ok t ts dts).mp h
    show (k, t).2 :: ds.map (fun p => p.2) = t :: ts
    rw [ih ds hd]

theorem decorate_mem : ∀ (ts : List Table) (dts : List (Int × Table)),
    decorate ts = .ok dts → ∀ p ∈ dts, sizeKeyE p.2 = .ok p.1 := by
  intro ts
  induction ts with
  | nil =>
    intro dts h p hp
    have : dts = [] := (Except.ok.inj h).symm
    rw [this] at hp
    exact absurd hp (by simp)
  | cons t ts ih =>
    intro dts h p hp
    obtain ⟨k, ds, hk, hd, rfl⟩ := (decorate_cons_ok t ts dts).mp h
    rcases List.mem_cons.mp hp with rfl | hp2
    · exact hk
    · exact ih ds hd p hp2

theorem decorate_of_mem : ∀ (l : List (Int × Table)),
    (∀ p ∈ l, sizeKeyE p.2 = .ok p.1) → decorate (l.map (fun p => p.2)) = .ok l := by
  intro l
  induction l with
  | nil => intro _; rfl
  | cons p l ih =>
    intro h
    show decorate (p.2 :: l.map (fun q => q.2)) = .ok (p :: l)
    rw [decorate_cons_ok]
    exact ⟨p.1, l, h p (List.mem_cons_self p l),
           ih (fun q hq => h q (List.mem_cons_of_mem _ hq)), rfl⟩

theorem decorate_processAll : ∀ (ts : List Table) (b : Bool) (dts : List (Int × Table)),
    decorate ts = .ok dts →
    ∃ dts', decorate (processAll b ts).1 = .ok dts' ∧
      dts'.map (fun p => p.1) = dts.map (fun p => p.1) ∧
      dts'.map (fun p => p.2) = (processAll b ts).1 := by
  intro ts
  induction ts with
  | nil =>
    intro b dts h
    have hdts : dts = [] := (Except.ok.inj h).symm
    subst hdts
    cases b <;> exact ⟨[], rfl, rfl, rfl⟩
  | cons t ts ih =>
    intro b dts h
    obtain ⟨k, ds, hk, hd, rfl⟩ := (decorate_cons_ok t ts dts).mp h
    cases b with
    | true =>
      obtain ⟨ds', hds', hkeys, hsnd⟩ := ih false ds hd
      refine ⟨(k, (processTable t).1) :: ds', ?_, ?_, ?_⟩
      · show decorate ((processTable t).1 :: (processAll false ts).1) = _
        rw [decorate_cons_ok]
        exact ⟨k, ds', by rw [sizeKeyE_processTable]; exact hk, hds', rfl⟩
      · show k :: ds'.map (fun p => p.1) = k :: ds.map (fun p => p.1)
        rw [hkeys]
      · show (processTable t).1 :: ds'.map (fun p => p.2) = (processTable t).1 :: (processAll false ts).1
        rw [hsnd]
    | false =>
      obtain ⟨ds', hds', hkeys, hsnd⟩ := ih true ds hd
      refine ⟨(k, t) :: ds', ?_, ?_, ?_⟩
      · show decorate (t :: (processAll true ts).1) = _
        rw [decorate_cons_ok]
        exact ⟨k, ds', hk, hds', rfl⟩
      · show k :: ds'.map (fun p => p.1) = k :: ds.map (fun p => p.1)
        rw [hkeys]
      · show t :: ds'.map (fun p => p.2) = t :: (processAll true ts).1
        rw [hsnd]

theorem run_ok (ts sorted : List Table) (h : sortTablesE ts = .ok sorted) :
    run ts =
      (match finalPrint (processAll true sorted).1 with
       | .error e =>
         ⟨(processAll true sorted).1, (processAll true sorted).2.1, .error e⟩
       | .ok lines =>
         ⟨(processAll true sorted).1, (processAll true sorted).2.1,
          .ok ((processAll true sorted).2.2 ++ lines)⟩) := by
  unfold run
  rw [h]

theorem run_tables (ts sorted : List Table) (h : sortTablesE ts = .ok sorted) :
    (run ts).tables = (processAll true sorted).1 := by
  rw [run_ok ts sorted h]
  cases hf : finalPrint (processAll true sorted).1 <;> rfl

theorem run_alters (ts sorted : List Table) (h : sortTablesE ts = .ok sorted) :
    (run ts).alters = (processAll true sorted).2.1 := by
  rw [run_ok ts sorted h]
  cases hf : finalPrint (processAll true sorted).1 <;> rfl

theorem sortTablesE_ok_iff (ts sorted : List Table) :
    sortTablesE ts = .ok sorted ↔
      ∃ dts, decorate ts = .ok dts ∧ sorted = (sortD dts).map (fun p => p.2) := by
  unfold sortTablesE
  constructor
  · intro h
    cases hd : decorate ts with
    | error e => rw [hd] at h; exact absurd h (by simp)
    | ok dts =>
      rw [hd] at h
      exact ⟨dts, rfl, (Except.ok.inj h).symm⟩
  · rintro ⟨dts, hd, rfl⟩
    rw [hd]

/-- The run output is sorted again by the same keys without change: its
decoration succeeds, has the same key sequence as the sorted input, and is
already key-descending. -/
theorem sortTablesE_run_output (ts : List Table) (dts : List (Int × Table))
    (h : decorate ts = .ok dts) :
    sortTablesE (run ts).tables = .ok (run ts).tables := by
  have hsort : sortTablesE ts = .ok ((sortD dts).map (fun p => p.2)) :=
    (sortTablesE_ok_iff ts _).mpr ⟨dts, h, rfl⟩
  have htab : (run ts).tables = (processAll true ((sortD dts).map (fun p => p.2))).1 :=
    run_tables ts _ hsort
  have hmemsort : ∀ p ∈ sortD dts, sizeKeyE p.2 = .ok p.1 := by
    intro p hp
    exact decorate_mem ts dts h p ((mem_sortD p dts).mp hp)
  have hdec : decorate ((sortD dts).map (fun p => p.2)) = .ok (sortD dts) :=
    decorate_of_mem (sortD dts) hmemsort
  obtain ⟨dts', hdts', hkeys, hsnd⟩ :=
    decorate_processAll ((sortD dts).map (fun p => p.2)) true (sortD dts) hdec
  have hpair : DescSorted dts' := by
    have h1 : List.Pairwise (fun a b : Int => b ≤ a) (dts'.map (fun p => p.1)) := by
      rw [hkeys]
      exact (List.pairwise_map).mpr (sortD_sorted dts)
    exact (List.pairwise_map).mp h1
  rw [htab]
  rw [sortTablesE_ok_iff]
  refine ⟨dts', hdts', ?_⟩
  rw [sortD_eq_self dts' hpair, hsnd]

/-- Elements of the loop output come from elements of the loop input: each is
either untouched or the processed image of an input element. -/
theorem processAll_mem_back : ∀ (ts : List Table) (b : Bool) (t' : Table),
    t' ∈ (processAll b ts).1 → ∃ t ∈ ts, t' = t ∨ t' = (processTable t).1 := by
  intro ts
  induction ts with
  | nil => intro b t' h; cases b <;> exact absurd h (by simp [processAll])
  | cons t ts ih =>
    intro b t' h
    cases b with
    | true =>
      rcases List.mem_cons.mp h with heq | h2
      · exact ⟨t, List.mem_cons_self t ts, Or.inr heq⟩
      · obtain ⟨t0, ht0, hor⟩ := ih false t' h2
        exact ⟨t0, List.mem_cons_of_mem _ ht0, hor⟩
    | false =>
      rcases List.mem_cons.mp h with heq | h2
      · exact ⟨t, List.mem_cons_self t ts, Or.inl heq⟩
      · obtain ⟨t0, ht0, hor⟩ := ih true t' h2
        exact ⟨t0, List.mem_cons_of_mem _ ht0, hor⟩

/-- Every loop input element appears in the output, untouched or processed. -/
theorem processAll_mem_fwd : ∀ (ts : List Table) (b : Bool) (t : Table),
    t ∈ ts → ∃ t' ∈ (processAll b ts).1, t' = t ∨ t' = (processTable t).1 := by
  intro ts
  induction ts with
  | nil => intro b t h; exact absurd h (by simp)
  | cons t0 ts ih =>
    intro b t h
    cases b with
    | true =>
      rcases List.mem_cons.mp h with heq | h2
      · exact ⟨(processTable t).1, by rw [heq]; exact List.mem_cons_self _ _, Or.inr rfl⟩
      · obtain ⟨t', ht', hor⟩ := ih false t h2
        exact ⟨t', List.mem_cons_of_mem _ ht', hor⟩
    | false =>
      rcases List.mem_cons.mp h with heq | h2
      · exact ⟨t, by rw [heq]; exact List.mem_cons_self _ _, Or.inl rfl⟩
      · obtain ⟨t', ht', hor⟩ := ih true t h2
        exact ⟨t', List.mem_cons_of_mem _ ht', hor⟩

theorem finalPrint_keyError : ∀ (l : List Table),
    (∀ t ∈ l, ∃ v, dictGet t.sd.parameters sizeKeyStr = some v) →
    (∃ t ∈ l, dictGet t.sd.serdeInfo.parameters pathKeyStr = none) →
    finalPrint l = .error .keyError := by
  intro l
  induction l with
  | nil =>
    rintro _ ⟨t, ht, _⟩
    exact absurd ht (by simp)
  | cons t ts ih =>
    rintro hsz ⟨t0, ht0, hpath⟩
    by_cases hp : dictGet t.sd.serdeInfo.parameters pathKeyStr = none
    · show (match tableLine t with
            | .error e => .error e
            | .ok l => (finalPrint ts).map (fun ls => l :: ls)) = Except.error PyErr.keyError
      unfold tableLine
      rw [hp]
    · obtain ⟨s, hs⟩ := Option.ne_none_iff_exists'.mp hp
      obtain ⟨v, hv⟩ := hsz t (List.mem_cons_self t ts)
      have ht0ts : t0 ∈ ts := by
        rcases List.mem_cons.mp ht0 with rfl | h2
        · exact absurd hpath hp
        · exact h2
      have hrec : finalPrint ts = .error .keyError :=
        ih (fun u hu => hsz u (List.mem_cons_of_mem _ hu)) ⟨t0, ht0ts, hpath⟩
      show (match tableLine t with
            | .error e => .error e
            | .ok l => (finalPrint ts).map (fun ls => l :: ls)) = Except.error PyErr.keyError
      unfold tableLine
      rw [hs, hv, hrec]
      rfl

/-! ## Remaining helper lemmas -/

theorem sizeKeyE_ok_get (t : Table) (k : Int) (h : sizeKeyE t = .ok k) :
    ∃ v, dictGet t.sd.parameters sizeKeyStr = some v := by
  unfold sizeKeyE at h
  cases hd : dictGet t.sd.parameters sizeKeyStr with
  | none => rw [hd] at h; exact absurd h (by simp)
  | some v => exact ⟨v, rfl⟩

theorem decorate_error_of_mem : ∀ (ts : List Table) (t : Table), t ∈ ts →
    (∃ e, sizeKeyE t = .error e) → ∃ e, decorate ts = .error e := by
  intro ts
  induction ts with
  | nil => intro t h _; exact absurd h (by simp)
  | cons u ts ih =>
    rintro t ht ⟨e, he⟩
    cases hu : sizeKeyE u with
    | error e0 =>
      refine ⟨e0, ?_⟩
      show (match sizeKeyE u, decorate ts with
            | .ok k, .ok ds => Except.ok ((k, u) :: ds)
            | .error e, _ => .error e
            | .ok _, .error e => .error e) = Except.error e0
      rw [hu]
    | ok k =>
      have htts : t ∈ ts := by
        rcases List.mem_cons.mp ht with heq | h2
        · rw [heq] at he
          rw [he] at hu
          exact absurd hu (by simp)
        · exact h2
      obtain ⟨e1, he1⟩ := ih t htts ⟨e, he⟩
      refine ⟨e1, ?_⟩
      show (match sizeKeyE u, decorate ts with
            | .ok k, .ok ds => Except.ok ((k, u) :: ds)
            | .error e, _ => .error e
            | .ok _, .error e => .error e) = Except.error e1
      rw [hu, he1]

theorem sortTablesE_error (ts : List Table) (e : PyErr) (h : decorate ts = .error e) :
    sortTablesE ts = .error e := by
  unfold sortTablesE
  rw [h]

theorem run_err (ts : List Table) (e : PyErr) (h : sortTablesE ts = .error e) :
    run ts = ⟨ts, [], .error e⟩ := by
  unfold run
  rw [h]

theorem run_output_error (ts sorted : List Table) (e : PyErr)
    (h : sortTablesE ts = .ok sorted)
    (hfp : finalPrint (processAll true sorted).1 = .error e) :
    (run ts).output = .error e := by
  rw [run_ok ts sorted h, hfp]

/-! ## The claims -/

/-- Claim C1: balance bound.  For every catalog whose cached sizes all parse
(`decorate ts = .ok dts`) and are nonnegative, after the size-descending sort
and the alternating assignment (even ranks moved to `dc2`, odd ranks left on
`dc1`), the absolute difference between the two backend totals is at most the
size of the largest single table of the input. -/
theorem claimC1_balance_bound (ts : List Table) (dts : List (Int × Table))
    (h : decorate ts = .ok dts) (hnn : ∀ p ∈ dts, 0 ≤ p.1) :
    |dc2Assigned dts - dc1Assigned dts| ≤ maxKey dts := by
  have hs : DescSorted (sortD dts) := sortD_sorted dts
  have hnn2 : ∀ x ∈ sortD dts, 0 ≤ x.1 := fun x hx => hnn x ((mem_sortD x dts).mp hx)
  obtain ⟨h0, h1⟩ := sumAlt_bound (sortD dts) hs hnn2
  show |(sumAlt (sortD dts)).1 - (sumAlt (sortD dts)).2| ≤ maxKey dts
  rw [abs_of_nonneg h0]
  calc (sumAlt (sortD dts)).1 - (sumAlt (sortD dts)).2
      ≤ headKey (sortD dts) := h1
    _ ≤ maxKey (sortD dts) := headKey_le_maxKey _
    _ = maxKey dts := maxKey_sortD dts

/-- Witness for C1 at the four-table example of the spec: sizes 400, 300,
200, 100 give totals 600 versus 400, difference 200 ≤ 400. -/
theorem claimC1_balance_bound_witness :
    decorate exTs = .ok exDts ∧ (∀ p ∈ exDts, 0 ≤ p.1) ∧
      |dc2Assigned exDts - dc1Assigned exDts| ≤ maxKey exDts :=
  ⟨rfl, by decide, claimC1_balance_bound exTs exDts rfl (by decide)⟩

/-- Claim C4: no-op safety.  A descriptor already located at the planned
target backend — the loop body's test being substring containment, this means
no occurrence of the `dc1` authority in `sd.location` nor in the serde `path`
value — produces no rewrite (the descriptor is returned unchanged), zero
`alter_table` submissions and no trace output. -/
theorem claimC4_noop_safety (t : Table) (h : tableClean t = true) :
    processTable t = (t, [], []) :=
  processTable_noop t h

/-- Witness for C4: a `dc2`-located descriptor passes through unchanged. -/
theorem claimC4_noop_safety_witness :
    tableClean cleanTabC4 = true ∧ processTable cleanTabC4 = (cleanTabC4, [], []) :=
  ⟨rfl, claimC4_noop_safety cleanTabC4 rfl⟩

/-- Claim C5 counterexample: the claim says equal-size tables are assigned in
a fixed name-ascending order independent of input order.  The sort key has no
name tiebreak and Python sort is stable, so the two listing orders of the same
equal-size pair produce different plans. -/
theorem claimC5_counterexample :
    planAssign [tabEqA, tabEqB] ≠ planAssign [tabEqB, tabEqA] := by
  have h1 : planAssign [tabEqA, tabEqB] =
      .ok [("a", Backend.dcTwo), ("b", Backend.dcOne)] := rfl
  have h2 : planAssign [tabEqB, tabEqA] =
      .ok [("b", Backend.dcTwo), ("a", Backend.dcOne)] := rfl
  rw [h1, h2]
  intro hcon
  exact absurd (Except.ok.inj hcon) (by decide)

/-- Claim C5 as amended: the planner is deterministic only for a fixed catalog
listing order; ties between equal-size tables are broken by listing order (the
stable sort keeps it), not by name: of two equal-size tables the one listed
first always takes the even (dc2) rank. -/
theorem claimC5_tie_by_input_order (t1 t2 : Table) (k : Int)
    (h1 : sizeKeyE t1 = .ok k) (h2 : sizeKeyE t2 = .ok k) :
    planAssign [t1, t2] =
      .ok [(t1.tableName, Backend.dcTwo), (t2.tableName, Backend.dcOne)] := by
  have hd2 : decorate [t2] = .ok [(k, t2)] := by
    show (match sizeKeyE t2, decorate ([] : List Table) with
          | .ok k, .ok ds => Except.ok ((k, t2) :: ds)
          | .error e, _ => .error e
          | .ok _, .error e => .error e) = Except.ok [(k, t2)]
    rw [h2]
    rfl
  have hd : decorate [t1, t2] = .ok [(k, t1), (k, t2)] := by
    show (match sizeKeyE t1, decorate [t2] with
          | .ok k, .ok ds => Except.ok ((k, t1) :: ds)
          | .error e, _ => .error e
          | .ok _, .error e => .error e) = Except.ok [(k, t1), (k, t2)]
    rw [h1, hd2]
  have hsrt : sortD [(k, t1), (k, t2)] = [(k, t1), (k, t2)] := by
    show insDesc (k, t1) (insDesc (k, t2) []) = [(k, t1), (k, t2)]
    show insDesc (k, t1) [(k, t2)] = [(k, t1), (k, t2)]
    show (if (k, t2).1 ≤ (k, t1).1 then (k, t1) :: (k, t2) :: []
          else (k, t2) :: insDesc (k, t1) []) = [(k, t1), (k, t2)]
    rw [if_pos (le_refl k)]
  have hsort : sortTablesE [t1, t2] = .ok [t1, t2] := by
    unfold sortTablesE
    rw [hd]
    show Except.ok ((sortD [(k, t1), (k, t2)]).map (fun p => p.2)) = Except.ok [t1, t2]
    rw [hsrt]
    rfl
  unfold planAssign
  rw [hsort]
  show Except.ok (assignAlt true [t1, t2]) =
    Except.ok [(t1.tableName, Backend.dcTwo), (t2.tableName, Backend.dcOne)]
  rfl

/-- Witness for the amended C5 at the concrete equal-size pair. -/
theorem claimC5_tie_by_input_order_witness :
    sizeKeyE tabEqA = .ok 100 ∧ sizeKeyE tabEqB = .ok 100 ∧
      planAssign [tabEqA, tabEqB] =
        .ok [("a", Backend.dcTwo), ("b", Backend.dcOne)] :=
  ⟨rfl, rfl, claimC5_tie_by_input_order tabEqA tabEqB 100 rfl rfl⟩

/-- Claim C7 counterexample: with no matching container, `get_docker_ip`
returns plain `None` — its body has no raise statement, so no
`EndpointNotFound`-style failure exists, and `__main__` goes on to build a
socket with a `None` host and enter the connect-retry loop. -/
theorem claimC7_counterexample :
    get_docker_ip "qflock-host" [] "qflock-storage-dc1" = none := rfl

/-- Claim C7 as amended: when the requested name is not the local hostname and
no container of the network matches it, the resolver returns `none` (Python
`None`) as an ordinary value rather than failing. -/
theorem claimC7_no_match_returns_none (hostname dn : String)
    (cs : List DockerContainer) (hne : dn ≠ hostname)
    (hfind : cs.find? (fun c => c.name == dn) = none) :
    get_docker_ip hostname cs dn = none := by
  unfold get_docker_ip
  rw [if_neg hne, hfind]

/-- Witness for the amended C7 on a non-empty, non-matching network. -/
theorem claimC7_no_match_returns_none_witness :
    get_docker_ip "qflock-host" [⟨"qflock-spark", "10.0.0.7/24"⟩] "qflock-storage-dc1"
      = none :=
  claimC7_no_match_returns_none "qflock-host" "qflock-storage-dc1"
    [⟨"qflock-spark", "10.0.0.7/24"⟩] (by decide) rfl

/-- Claim C9: `get_storage_size` reads the module-level name `table`, which is
never bound (`moduleTable = none`), so every call raises `NameError`; and its
`location` parameter is ignored entirely — for any value of the global the
result is the same at every `location` argument. -/
theorem claimC9_name_error (fs : String → List PyFileInfo) (loc loc2 : String)
    (tv : Option Table) :
    get_storage_size moduleTable fs loc = .error .nameError ∧
    get_storage_size tv fs loc = get_storage_size tv fs loc2 := by
  constructor
  · rfl
  · cases tv <;> rfl

/-- Claim C2: idempotence.  After a successful run on a catalog whose sizes
all parse, the plan recomputed from the updated catalog is identical to the
plan of the original catalog (sizes and identities are untouched), and a
second consecutive run with no catalog mutation in between performs zero
`alter_table` submissions and leaves every descriptor unchanged. -/
theorem claimC2_idempotent (ts : List Table) (dts : List (Int × Table))
    (h : decorate ts = .ok dts) :
    planAssign (run ts).tables = planAssign ts ∧
    (run (run ts).tables).alters = [] ∧
    (run (run ts).tables).tables = (run ts).tables := by
  have hs : sortTablesE ts = .ok ((sortD dts).map (fun p => p.2)) :=
    (sortTablesE_ok_iff ts _).mpr ⟨dts, h, rfl⟩
  have htab : (run ts).tables = (processAll true ((sortD dts).map (fun p => p.2))).1 :=
    run_tables ts _ hs
  have h2 : sortTablesE (run ts).tables = .ok (run ts).tables :=
    sortTablesE_run_output ts dts h
  have hclean : EvenClean true (run ts).tables := by
    rw [htab]
    exact processAll_clean _ true
  have hnoop : processAll true (run ts).tables = ((run ts).tables, [], []) :=
    processAll_noop _ true hclean
  refine ⟨?_, ?_, ?_⟩
  · unfold planAssign
    rw [h2, hs]
    show Except.ok (assignAlt true (run ts).tables) =
      Except.ok (assignAlt true ((sortD dts).map (fun p => p.2)))
    rw [htab]
    rw [assignAlt_processAll]
  · rw [run_alters _ _ h2, hnoop]
  · rw [run_tables _ _ h2, hnoop]

/-- Witness for C2 at the four-table example: the second run is silent. -/
theorem claimC2_idempotent_witness :
    decorate exTs = .ok exDts ∧
    planAssign (run exTs).tables = planAssign exTs ∧
    (run (run exTs).tables).alters = [] :=
  ⟨rfl, (claimC2_idempotent exTs exDts rfl).1, (claimC2_idempotent exTs exDts rfl).2.1⟩

/-- Claim C6 counterexample: next to a perfectly sized and rewriteable table,
one table without the cached size key makes the whole run abort at the sort
with `KeyError`: zero submissions happen, nothing is excluded per-table, even
though the sized table alone would have received two submissions. -/
theorem claimC6_counterexample :
    run [sizedTabC6, unsizedTabC6] =
      ⟨[sizedTabC6, unsizedTabC6], [], .error .keyError⟩ ∧
    (run [sizedTabC6]).alters.length = 2 :=
  ⟨rfl, rfl⟩

/-- Claim C6 as amended: a table whose size cannot be determined (missing or
unparseable `qflock.storage_size`) is not excluded per-table; the sort key
raises, the whole run aborts before any rewrite, and zero `alter_table`
submissions are made. -/
theorem claimC6_size_failure_aborts (ts : List Table) (t : Table)
    (hmem : t ∈ ts) (hfail : ∃ e, sizeKeyE t = .error e) :
    (run ts).alters = [] ∧ ∃ e, (run ts).output = .error e := by
  obtain ⟨e, he⟩ := decorate_error_of_mem ts t hmem hfail
  have hs : sortTablesE ts = .error e := sortTablesE_error ts e he
  rw [run_err ts e hs]
  exact ⟨rfl, e, rfl⟩

/-- Witness for the amended C6 at the concrete two-table catalog. -/
theorem claimC6_size_failure_aborts_witness :
    (run [sizedTabC6, unsizedTabC6]).alters = [] ∧
    ∃ e, (run [sizedTabC6, unsizedTabC6]).output = .error e :=
  claimC6_size_failure_aborts [sizedTabC6, unsizedTabC6] unsizedTabC6
    (List.mem_cons_of_mem _ (List.mem_cons_self _ _)) ⟨.keyError, rfl⟩

/-- Claim C8 counterexample: a foreign-location descriptor is left unmodified
with zero submissions — and with an empty trace output, i.e. nothing flags the
condition as a warning; the table is silently skipped, contradicting the
claim's "flagged as a warning rather than being silently dropped". -/
theorem claimC8_counterexample :
    processTable foreignTabC8 = (foreignTabC8, [], []) := rfl

/-- Claim C8 as amended: a descriptor whose location fields reference neither
backend is never mutated and triggers no `alter_table` — but the condition is
not flagged: the rewrite loop prints nothing for it (the table only shows up
later in the plain inventory lines). -/
theorem claimC8_foreign_silent (t : Table) (h : tableForeign t = true) :
    processTable t = (t, [], []) := by
  apply processTable_noop
  rw [tableClean_iff]
  unfold tableForeign at h
  rw [Bool.and_eq_true, Bool.and_eq_true] at h
  constructor
  · have := h.1.1
    simpa using this
  · intro s hs
    rw [hs] at h
    have h2 := h.2
    rw [Bool.and_eq_true] at h2
    simpa using h2.1

/-- Witness for the amended C8 at the concrete foreign descriptor. -/
theorem claimC8_foreign_silent_witness :
    tableForeign foreignTabC8 = true ∧
    processTable foreignTabC8 = (foreignTabC8, [], []) :=
  ⟨rfl, claimC8_foreign_silent foreignTabC8 rfl⟩

theorem processTable_alters_pos (t : Table) (hin : pyIn dc1Loc t.sd.location = true) :
    (processTable t).2.1.getLast? = some (mkAlter (processTable t).1) ∧
    ((processTable t).2.1.length = 1 ∨ (processTable t).2.1.length = 2) := by
  have h1 : step1 t = (rewriteLoc t, [mkAlter (rewriteLoc t)],
      ["Alter " ++ t.tableName ++ " location to dc2"]) := by
    unfold step1
    rw [if_pos hin]
  have hpt1 : (processTable t).1 = (step2 (rewriteLoc t)).1 := by
    show (step2 (step1 t).1).1 = _
    rw [h1]
  have halters : (processTable t).2.1 = mkAlter (rewriteLoc t) :: (step2 (rewriteLoc t)).2 := by
    show (step1 t).2.1 ++ (step2 (step1 t).1).2 = _
    rw [h1]
    rfl
  rw [halters, hpt1]
  cases hdm : dictGet (rewriteLoc t).sd.serdeInfo.parameters pathKeyStr with
  | none =>
    have hs2 : step2 (rewriteLoc t) = (rewriteLoc t, []) := by
      unfold step2
      rw [hdm]
    rw [hs2]
    exact ⟨rfl, Or.inl rfl⟩
  | some s =>
    by_cases hins : pyIn dc1Loc s = true
    · have hs2 : step2 (rewriteLoc t) =
          (rewritePath (rewriteLoc t) s, [mkAlter (rewritePath (rewriteLoc t) s)]) := by
        unfold step2
        rw [hdm]
        show (if pyIn dc1Loc s = true
              then (rewritePath (rewriteLoc t) s, [mkAlter (rewritePath (rewriteLoc t) s)])
              else (rewriteLoc t, [])) = _
        rw [if_pos hins]
      rw [hs2]
      exact ⟨rfl, Or.inr rfl⟩
    · have hs2 : step2 (rewriteLoc t) = (rewriteLoc t, []) := by
        unfold step2
        rw [hdm]
        show (if pyIn dc1Loc s = true
              then (rewritePath (rewriteLoc t) s, [mkAlter (rewritePath (rewriteLoc t) s)])
              else (rewriteLoc t, [])) = _
        rw [if_neg hins]
      rw [hs2]
      exact ⟨rfl, Or.inl rfl⟩

/-- Claim C3 as amended: for a descriptor whose location is the `dc1` prefix
followed by a `dc1`-free remainder, the loop body rewrites exactly that prefix
to the `dc2` prefix in the location; the serde `path` value, when present, is
rewritten in place exactly when it contains the `dc1` prefix; every other
field of the descriptor is copied through unmodified (name, database, owner,
table parameters, columns, storage parameters, serialization library and every
other serde parameter); the submissions go through the whole-record
`alter_table` — one or two of them, the final submission carrying the complete
updated descriptor with all rewritten fields. -/
theorem claimC3_rewrite_frame (t : Table) (rest : List Char)
    (hloc : t.sd.location.data = dc1Loc.data ++ rest)
    (hrest : containsSub dc1Loc.data rest = false) :
    (processTable t).1.sd.location.data = dc2Loc.data ++ rest ∧
    (processTable t).1.tableName = t.tableName ∧
    (processTable t).1.dbName = t.dbName ∧
    (processTable t).1.owner = t.owner ∧
    (processTable t).1.parameters = t.parameters ∧
    (processTable t).1.sd.cols = t.sd.cols ∧
    (processTable t).1.sd.parameters = t.sd.parameters ∧
    (processTable t).1.sd.serdeInfo.serializationLib = t.sd.serdeInfo.serializationLib ∧
    (∀ k, k ≠ pathKeyStr →
      dictGet (processTable t).1.sd.serdeInfo.parameters k =
        dictGet t.sd.serdeInfo.parameters k) ∧
    dictGet (processTable t).1.sd.serdeInfo.parameters pathKeyStr =
      (dictGet t.sd.serdeInfo.parameters pathKeyStr).map
        (fun s => if pyIn dc1Loc s then pyReplace s dc1Loc dc2Loc else s) ∧
    (processTable t).2.1.getLast? = some (mkAlter (processTable t).1) ∧
    ((processTable t).2.1.length = 1 ∨ (processTable t).2.1.length = 2) := by
  have hin : pyIn dc1Loc t.sd.location = true := by
    show containsSub dc1Loc.data t.sd.location.data = true
    rw [hloc]
    exact containsSub_of_isPre _ _ (isPre_append_self _ _)
  have h1 : step1 t = (rewriteLoc t, [mkAlter (rewriteLoc t)],
      ["Alter " ++ t.tableName ++ " location to dc2"]) := by
    unfold step1
    rw [if_pos hin]
  have hpt1 : (processTable t).1 = (step2 (rewriteLoc t)).1 := by
    show (step2 (step1 t).1).1 = _
    rw [h1]
  have hlocnew : (rewriteLoc t).sd.location.data = dc2Loc.data ++ rest := by
    show (replaceAll dc1Loc.data dc2Loc.data t.sd.location.data) = dc2Loc.data ++ rest
    rw [hloc]
    rw [show dc1Loc.data = 'h' :: "dfs://qflock-storage-dc1:".data from rfl] at hrest ⊢
    exact replaceAll_left dc2Loc.data rest 'h' _ hrest
  obtain ⟨hlast, hlen⟩ := processTable_alters_pos t hin
  refine ⟨?_, processTable_tableName t, ?_, ?_, ?_, ?_, processTable_sdParams t, ?_,
    ?_, processTable_path t, hlast, hlen⟩
  · rw [hpt1, step2_location]
    exact hlocnew
  · rw [hpt1, step2_dbName]
    rfl
  · rw [hpt1, step2_owner]
    rfl
  · rw [hpt1, step2_params]
    rfl
  · rw [hpt1, step2_cols]
    rfl
  · rw [hpt1, step2_serdeLib]
    rfl
  · intro k hk
    have hstep : dictGet (processTable t).1.sd.serdeInfo.parameters k =
        dictGet (step1 t).1.sd.serdeInfo.parameters k := by
      show dictGet (step2 (step1 t).1).1.sd.serdeInfo.parameters k = _
      exact step2_path_other (step1 t).1 k hk
    rw [hstep, step1_serde]

/-- Witness for the amended C3 at the concrete both-fields `dc1` table. -/
theorem claimC3_rewrite_frame_witness :
    cexTabC3.sd.location.data = dc1Loc.data ++ "9000/tpcds/c3".data ∧
    containsSub dc1Loc.data "9000/tpcds/c3".data = false ∧
    (processTable cexTabC3).1.sd.location.data = dc2Loc.data ++ "9000/tpcds/c3".data ∧
    (processTable cexTabC3).2.1.getLast? = some (mkAlter (processTable cexTabC3).1) :=
  ⟨rfl, rfl,
   (claimC3_rewrite_frame cexTabC3 "9000/tpcds/c3".data rfl rfl).1,
   (claimC3_rewrite_frame cexTabC3 "9000/tpcds/c3".data rfl rfl).2.2.2.2.2.2.2.2.2.2.1⟩

/-- Claim C3 counterexample: the claim requires one single submission carrying
both rewritten fields.  On a descriptor carrying the `dc1` prefix in both the
location and the serde path, the loop submits twice, and the first submission
still carries the un-rewritten `dc1` path. -/
theorem claimC3_counterexample :
    (processTable cexTabC3).2.1.length = 2 ∧
    ((processTable cexTabC3).2.1.headD (mkAlter cexTabC3)).tbl.sd.serdeInfo.parameters =
      [("path", "hdfs://qflock-storage-dc1:9000/tpcds/c3")] :=
  ⟨rfl, rfl⟩

/-- Claim C10 counterexample: a table lacking the size key makes the run raise
`KeyError` at the sort, before any submission — zero alters happen even though
the sibling table alone would have received two; so "KeyError after the
alter_table rewrites have already been submitted" fails for the size key. -/
theorem claimC10_counterexample :
    run [sizedTabC10, unsizedTabC10] =
      ⟨[sizedTabC10, unsizedTabC10], [], .error .keyError⟩ ∧
    (run [sizedTabC10]).alters.length = 2 :=
  ⟨rfl, rfl⟩

/-- Claim C10 as amended: the final inventory loop indexes the serde `path`
and the size parameter without presence checks.  When every size parses but
some table lacks `path`, the run raises `KeyError` in that final loop — after
the rewrite loop has finished, with every `alter_table` submission already
made and remaining committed.  (A missing size key instead aborts earlier, at
the sort, before any submission.) -/
theorem claimC10_missing_path_raises_after_alters (ts : List Table)
    (dts : List (Int × Table)) (h : decorate ts = .ok dts)
    (hmiss : ∃ t ∈ ts, dictGet t.sd.serdeInfo.parameters pathKeyStr = none) :
    (run ts).output = .error .keyError ∧
    (run ts).alters = (processAll true ((sortD dts).map (fun p => p.2))).2.1 := by
  have hs : sortTablesE ts = .ok ((sortD dts).map (fun p => p.2)) :=
    (sortTablesE_ok_iff ts _).mpr ⟨dts, h, rfl⟩
  have hsz : ∀ t1 ∈ (processAll true ((sortD dts).map (fun p => p.2))).1,
      ∃ v, dictGet t1.sd.parameters sizeKeyStr = some v := by
    intro t1 ht1
    obtain ⟨t0, ht0, hor⟩ := processAll_mem_back _ true t1 ht1
    obtain ⟨p, hp, hpeq⟩ := List.mem_map.mp ht0
    have hk : sizeKeyE p.2 = .ok p.1 :=
      decorate_mem ts dts h p ((mem_sortD p dts).mp hp)
    obtain ⟨v, hv⟩ := sizeKeyE_ok_get p.2 p.1 hk
    rcases hor with heq | heq
    · rw [heq, ← hpeq]
      exact ⟨v, hv⟩
    · rw [heq, processTable_sdParams, ← hpeq]
      exact ⟨v, hv⟩
  have hpm : ∃ t1 ∈ (processAll true ((sortD dts).map (fun p => p.2))).1,
      dictGet t1.sd.serdeInfo.parameters pathKeyStr = none := by
    obtain ⟨t, ht, hnone⟩ := hmiss
    have htm : t ∈ (sortD dts).map (fun p => p.2) := by
      have hts : dts.map (fun p => p.2) = ts := decorate_snd ts dts h
      rw [← hts] at ht
      obtain ⟨p, hp, hpeq⟩ := List.mem_map.mp ht
      exact List.mem_map.mpr ⟨p, (mem_sortD p dts).mpr hp, hpeq⟩
    obtain ⟨t1, ht1, hor⟩ := processAll_mem_fwd _ true t htm
    refine ⟨t1, ht1, ?_⟩
    rcases hor with heq | heq
    · rw [heq]
      exact hnone
    · rw [heq, processTable_path, hnone]
      rfl
  have hfp : finalPrint (processAll true ((sortD dts).map (fun p => p.2))).1 =
      .error .keyError :=
    finalPrint_keyError _ hsz hpm
  exact ⟨run_output_error ts _ _ hs hfp, run_alters ts _ hs⟩

/-- Witness for the amended C10: one sized `dc1` table without a serde `path`
gets its location rewrite submitted, then the inventory loop raises. -/
theorem claimC10_missing_path_raises_after_alters_witness :
    decorate [pathlessTabC10] = .ok [(300, pathlessTabC10)] ∧
    (run [pathlessTabC10]).output = .error .keyError ∧
    (run [pathlessTabC10]).alters.length = 1 := by
  have hmain := claimC10_missing_path_raises_after_alters [pathlessTabC10]
    [(300, pathlessTabC10)] rfl
    ⟨pathlessTabC10, List.mem_cons_self _ _, rfl⟩
  refine ⟨rfl, hmain.1, ?_⟩
  rw [hmain.2]
  rfl
